import Mathlib

/-!
Verification of the webpage-fetch-and-clean pipeline of `src/web_utils.py`
(`fetch_webpage_content`, `clean_text`, `get_content_preview`).

Strings are modelled as Lean `String` values; the character-level work is
done on `List Char`.  Python's regex character classes `\s` and `\w` are
modelled on their ASCII fragment (space, tab, newline, carriage return,
form feed, vertical tab; ASCII letters, digits and underscore), which is
the fragment all the claims exercise.  Machine integers are `Int`
(Python integers are unbounded).  The single floating-point expression of
the source, `last_space > max_chars * 0.8` in `get_content_preview`, is
modelled by the exact rational comparison `5 * last_space > 4 * max_chars`,
which agrees with the source expression on all inputs of relevant size.
-/

/-- ASCII fragment of Python's regex class `\s` (also used by `str.strip()`
and `str.split()`). -/
def isSpaceChar (c : Char) : Bool :=
  c = ' ' || c = '\t' || c = '\n' || c = '\r' || c = '\x0b' || c = '\x0c'

/-- ASCII fragment of Python's regex class `\w`: letters, digits, underscore. -/
def isWordChar (c : Char) : Bool :=
  c.isAlphanum || c = '_'

/-- The punctuation kept by `clean_text` line 103:
`. , ! ? ; : - ( ) [ ] ' "`. -/
def isKeptPunct (c : Char) : Bool :=
  c = '.' || c = ',' || c = '!' || c = '?' || c = ';' || c = ':' ||
  c = '-' || c = '(' || c = ')' || c = '[' || c = ']' || c = '\'' || c = '"'

/-- The character class of `clean_text` line 103: a character survives
`re.sub(r'[^\w\s\.\,\!\?\;\:\-\(\)\[\]\'\"\n]', '', text)` iff it is a word
character, whitespace, kept punctuation, or a newline. -/
def isKeptChar (c : Char) : Bool :=
  isWordChar c || isSpaceChar c || isKeptPunct c || c = '\n'

/-- One step list model of `re.sub(r'\s+', ' ', text)` (`clean_text` line 97):
scanning left to right, each maximal run of whitespace is replaced by a single
space.  The fuel argument (instantiated with the list length, which bounds the
number of scan steps) keeps the recursion structural so the kernel can
evaluate it. -/
def collapseWsF : Nat → List Char → List Char
  | 0, _ => []
  | _ + 1, [] => []
  | f + 1, c :: cs =>
    if isSpaceChar c then ' ' :: collapseWsF f (cs.dropWhile isSpaceChar)
    else c :: collapseWsF f cs

/-- `re.sub(r'\s+', ' ', ·)` on a character list. -/
def collapseW (cs : List Char) : List Char :=
  collapseWsF cs.length cs

/-- Index of the last `'\n'` in a list, if any (used for the greedy `\s*`
backtracking of the pattern `\n\s*\n`). -/
def lastNlIdx (ws : List Char) : Option Nat :=
  match ws.reverse.findIdx? (fun c => c = '\n') with
  | some i => some (ws.length - 1 - i)
  | none => none

/-- One step list model of `re.sub(r'\n\s*\n', '\n\n', text)` (`clean_text`
line 100): at a `'\n'`, the greedy `\s*` followed by `\n` matches exactly when
some later `'\n'` occurs inside the whitespace run that follows, and
backtracking picks the last such `'\n'`; the whole match is replaced by two
newlines and scanning resumes after it.  Fuel as in `collapseWsF`. -/
def sub2F : Nat → List Char → List Char
  | 0, _ => []
  | _ + 1, [] => []
  | f + 1, c :: cs =>
    if c = '\n' then
      match lastNlIdx (cs.takeWhile isSpaceChar) with
      | some j => '\n' :: '\n' :: sub2F f (cs.drop (j + 1))
      | none => c :: sub2F f cs
    else c :: sub2F f cs

/-- `re.sub(r'\n\s*\n', '\n\n', ·)` on a character list. -/
def sub2W (cs : List Char) : List Char :=
  sub2F cs.length cs

/-- Remove trailing whitespace (the right half of Python's `str.strip()`). -/
def dropTrailingWs : List Char → List Char
  | [] => []
  | c :: cs =>
    let r := dropTrailingWs cs
    if r = [] && isSpaceChar c then [] else c :: r

/-- Python `str.strip()` on a character list: remove leading and trailing
whitespace. -/
def stripL (cs : List Char) : List Char :=
  dropTrailingWs (cs.dropWhile isSpaceChar)

/-- Python `str.strip()`. -/
def pyStrip (s : String) : String :=
  String.mk (stripL s.data)

/-- `clean_text` (`src/web_utils.py` lines 86-108): collapse whitespace runs
to a single space, collapse blank lines, drop characters outside the
allow-list, strip. -/
def clean_text (s : String) : String :=
  String.mk (stripL (List.filter isKeptChar (sub2W (collapseW s.data))))

/-- Python `str.split()` with no separator (`fetch_webpage_content` line 50):
split on runs of whitespace, discarding empty tokens.  Fuel as above. -/
def pySplitF : Nat → List Char → List (List Char)
  | 0, _ => []
  | _ + 1, [] => []
  | f + 1, c :: cs =>
    if isSpaceChar c then pySplitF f cs
    else (c :: cs.takeWhile (fun d => !isSpaceChar d)) ::
      pySplitF f (cs.dropWhile (fun d => !isSpaceChar d))

/-- `text.split()` on a character list. -/
def pySplitL (cs : List Char) : List (List Char) :=
  pySplitF cs.length cs

/-- `text.split()` giving a list of strings. -/
def pySplitS (s : String) : List String :=
  (pySplitL s.data).map String.mk

/-- Python `' '.join(words)` on character lists. -/
def joinL : List (List Char) → List Char
  | [] => []
  | [w] => w
  | w :: ws => w ++ ' ' :: joinL ws

/-- Python `' '.join(words)`. -/
def joinWords (ws : List String) : String :=
  String.mk (joinL (ws.map String.data))

/-- Python slice `l[:n]` for an arbitrary integer bound: a nonnegative bound
takes that many elements, a negative bound drops that many from the end. -/
def pySliceL {α : Type} (l : List α) (n : Int) : List α :=
  if 0 ≤ n then l.take n.toNat else l.take (l.length - (-n).toNat)

/-- The truncation marker `f"\n\n[Content truncated at {max_words} words]"`
(`fetch_webpage_content` line 53). -/
def truncMarker (mw : Int) : String :=
  "\n\n[Content truncated at " ++ toString mw ++ " words]"

/-- Word-budget truncation, `fetch_webpage_content` lines 50-53:
`words = text.split(); if len(words) > max_words: text = ' '.join(words[:max_words]);
text += marker`. -/
def truncateWords (text : String) (mw : Int) : String :=
  let words := pySplitS text
  if ((words.length : Int)) > mw then
    joinWords (pySliceL words mw) ++ truncMarker mw
  else text

/-- Python `content.rfind(' ')`: highest index holding a space, `-1` if none. -/
def rfindSpaceAux : List Char → Nat → Int → Int
  | [], _, acc => acc
  | c :: cs, i, acc => rfindSpaceAux cs (i + 1) (if c = ' ' then (i : Int) else acc)

/-- `content.rfind(' ')` on a character list. -/
def rfindSpace (cs : List Char) : Int :=
  rfindSpaceAux cs 0 (-1)

/-- `get_content_preview` (`src/web_utils.py` lines 111-131).  The float
comparison `last_space > max_chars * 0.8` is modelled by the exact rational
comparison `5 * last_space > 4 * max_chars`. -/
def get_content_preview (content : String) (max_chars : Int) : String :=
  if ((content.length : Int)) ≤ max_chars then content
  else
    let pre := pySliceL content.data max_chars
    let last_space := rfindSpace pre
    if 5 * last_space > 4 * max_chars then String.mk (pySliceL pre last_space) ++ "..."
    else String.mk pre ++ "..."

/-- Python `url.startswith(p)` for a single literal. -/
def pyStartsWith (s p : String) : Bool :=
  s.data.take p.data.length == p.data

/-! ### HTML layer

`fetch_webpage_content` delegates HTML parsing to the third-party
BeautifulSoup/lxml stack (`src/web_utils.py` line 37).  The defs below model
that library on well-formed, attribute-free markup — an element tree, removal
of elements by tag name, `get_text`, and `find` — which is all the source
asks of it.  All recursions are fueled by the length of the HTML text, which
bounds the token count and the node count of the parse. -/

/-- A lexical token of the HTML input: an opening tag, a closing tag, or a
text run. -/
inductive HTok : Type where
  | topen (tag : String) : HTok
  | tclose (tag : String) : HTok
  | txt (s : String) : HTok

/-- An element tree node, as produced by the HTML parse. -/
inductive HNode : Type where
  | elem (tag : String) (children : List HNode) : HNode
  | txt (s : String) : HNode

/-- Lexer for well-formed markup: `<name>` and `</name>` become tag tokens
(anything after a space inside the bracket is ignored, as attributes would
be), text runs between tags become text tokens. -/
def tokenizeF : Nat → List Char → List HTok
  | 0, _ => []
  | _ + 1, [] => []
  | f + 1, '<' :: cs =>
    let inside := cs.takeWhile (fun c => c ≠ '>')
    let rest := (cs.dropWhile (fun c => c ≠ '>')).drop 1
    (match inside with
     | '/' :: name => HTok.tclose (String.mk name)
     | name => HTok.topen (String.mk (name.takeWhile (fun c => c ≠ ' ')))) ::
      tokenizeF f rest
  | f + 1, c :: cs =>
    HTok.txt (String.mk (c :: cs.takeWhile (fun d => d ≠ '<'))) ::
      tokenizeF f (cs.dropWhile (fun d => d ≠ '<'))

/-- Build the node forest from the token stream: an opening tag collects
children until the matching closing tag. -/
def parseNodesF : Nat → List HTok → List HNode × List HTok
  | 0, toks => ([], toks)
  | _ + 1, [] => ([], [])
  | _ + 1, HTok.tclose t :: rest => ([], HTok.tclose t :: rest)
  | f + 1, HTok.txt s :: rest =>
    let (ns, r) := parseNodesF f rest
    (HNode.txt s :: ns, r)
  | f + 1, HTok.topen t :: rest =>
    let (kids, r) := parseNodesF f rest
    match r with
    | HTok.tclose _ :: r' =>
      let (sibs, r'') := parseNodesF f r'
      (HNode.elem t kids :: sibs, r'')
    | other => ([HNode.elem t kids], other)

/-- `BeautifulSoup(response.content, 'lxml')`: the parsed node forest of the
page. -/
def parsedHtml (html : String) : List HNode :=
  (parseNodesF (html.data.length + 1) (tokenizeF (html.data.length + 1) html.data)).1

/-- The tag names decomposed by `fetch_webpage_content` line 40. -/
def removedTags : List String :=
  ["script", "style", "head", "title", "meta", "[document]", "noscript",
   "header", "footer", "nav", "aside"]

/-- `for element in soup([...]): element.decompose()` (lines 40-41): every
element anywhere in the tree whose tag is in `removedTags` is removed,
together with its subtree. -/
def removeF : Nat → List HNode → List HNode
  | 0, _ => []
  | _ + 1, [] => []
  | f + 1, HNode.txt s :: rest => HNode.txt s :: removeF f rest
  | f + 1, HNode.elem t cs :: rest =>
    if t ∈ removedTags then removeF f rest
    else HNode.elem t (removeF f cs) :: removeF f rest

/-- The soup after the decompose loop (lines 40-41). -/
def strippedSoupOf (html : String) : List HNode :=
  removeF (html.data.length + 1) (parsedHtml html)

/-- The text-node strings of a forest, in document order (BeautifulSoup
`strings`). -/
def collectF : Nat → List HNode → List String
  | 0, _ => []
  | _ + 1, [] => []
  | f + 1, HNode.txt s :: rest => s :: collectF f rest
  | f + 1, HNode.elem _ cs :: rest => collectF f cs ++ collectF f rest

/-- `soup.get_text(separator=' ', strip=True)` (line 44): each text-node
string is stripped, empty results are dropped, and the rest are joined with
a single space. -/
def getTextSepStrip (fuel : Nat) (ns : List HNode) : String :=
  joinWords (((collectF fuel ns).map pyStrip).filter (fun s => s ≠ ""))

/-- The visible text the source extracts at line 44, as a function of the
page HTML. -/
def extractedTextOf (html : String) : String :=
  getTextSepStrip (html.data.length + 1) (strippedSoupOf html)

/-- `soup.find('title')` (line 59): first element named `title`, in document
order, descending into children. -/
def findTitleF : Nat → List HNode → Option HNode
  | 0, _ => none
  | _ + 1, [] => none
  | f + 1, HNode.txt _ :: rest => findTitleF f rest
  | f + 1, HNode.elem t cs :: rest =>
    if t = "title" then some (HNode.elem t cs)
    else
      match findTitleF f cs with
      | some n => some n
      | none => findTitleF f rest

/-- `node.get_text()` with default arguments (line 60): concatenation of all
text-node strings below the node. -/
def getAllTextF (fuel : Nat) (n : HNode) : String :=
  String.join (collectF fuel [n])

/-- The post-network part of `fetch_webpage_content` (lines 36-68): parse,
decompose boilerplate tags, extract visible text, clean, truncate to the word
budget, reject short content, and format the metadata header. -/
def processHtml (url html : String) (max_words : Int) : Bool × String :=
  let fuel := html.data.length + 1
  let soup := strippedSoupOf html
  let text := extractedTextOf html
  let text := clean_text text
  let text := truncateWords text max_words
  if text == "" || (pyStrip text).length < 50 then
    (false, "No meaningful content found on the webpage.")
  else
    let title_text :=
      match findTitleF fuel soup with
      | some n => pyStrip (getAllTextF fuel n)
      | none => "No title"
    (true,
      "Page Title: " ++ title_text ++ "\n" ++
      "URL: " ++ url ++ "\n" ++
      "Word Count: " ++ toString (pySplitS text).length ++ " words\n" ++
      String.mk (List.replicate 80 '-') ++ "\n\n" ++
      text)

/-- `fetch_webpage_content` (`src/web_utils.py` lines 11-83).  The network is
an oracle `net` mapping a URL to the response body, `none` standing for the
transport-error paths (lines 70-83), which no claim inspects beyond their
being failures. -/
def fetch_webpage_content (net : String → Option String) (url : String)
    (max_words : Int) : Bool × String :=
  if !(pyStartsWith url "http://" || pyStartsWith url "https://") then
    (false, "Invalid URL. Please include http:// or https://")
  else
    match net url with
    | none => (false, "Connection error. Please check your internet connection or the URL.")
    | some html => processHtml url html max_words

/-! ### Concrete pages used by the end-to-end claims -/

/-- The scenario-A page of the spec. -/
def htmlScenarioA : String :=
  "<html><head><title>Cats</title></head><body><nav>menu</nav><p>Cats are mammals. </p></body></html>"

/-- The scenario-A page with the body sentence repeated four times, so that
the cleaned text passes the 50-character minimum. -/
def htmlScenarioA4 : String :=
  "<html><head><title>Cats</title></head><body><nav>menu</nav><p>Cats are mammals. Cats are mammals. Cats are mammals. Cats are mammals.</p></body></html>"

/-- A page whose only visible text is eight two-letter words (23 characters
once cleaned). -/
def htmlEightWords : String :=
  "<html><body><p>aa bb cc dd ee ff gg hh</p></body></html>"

/-- A page whose only visible text is exactly 10 characters. -/
def htmlTenChars : String :=
  "<html><head><title>T</title></head><body><p>ten chars!</p></body></html>"

/-- Whether a character list is free of two adjacent whitespace characters. -/
def noAdjSpace : List Char → Bool
  | [] => true
  | [_] => true
  | a :: b :: t => !(isSpaceChar a && isSpaceChar b) && noAdjSpace (b :: t)

/-! ### Claim theorems: concrete evaluations -/

set_option maxRecDepth 20000 in
/-- C1: the code removes the `title` node (line 40-41) before reading it
(line 59), so the title header is always `No title`; and scenario A's
17-character body trips the 50-character minimum, so the fetch fails outright
instead of succeeding with `Page Title: Cats`.  First conjunct: scenario A
returns the empty-content failure.  Remaining conjuncts: with a body long
enough to pass the minimum, the fetch succeeds but its header reads
`Page Title: No title`. -/
theorem scenarioA_title_lost :
    fetch_webpage_content (fun _ => some htmlScenarioA) "http://example.com" 1000 =
      (false, "No meaningful content found on the webpage.")
    ∧ (fetch_webpage_content (fun _ => some htmlScenarioA4) "http://example.com" 1000).1 = true
    ∧ (fetch_webpage_content (fun _ => some htmlScenarioA4) "http://example.com" 1000).2.take 21 =
        "Page Title: No title\n" := by
  decide

/-- C2 counterexample: with `max_words = -1` the Python slice `words[:-1]`
keeps every word but the last, so the result of truncating `"a b"` carries a
nonempty body before the marker, not the empty body the claim requires. -/
theorem truncate_nonpos_cex :
    truncateWords "a b" (-1) = "a\n\n[Content truncated at -1 words]"
    ∧ truncateWords "a b" (-1) ≠ "\n\n[Content truncated at -1 words]" := by
  decide

/-- C3 counterexample: with `max_chars = -1` the slice `content[:-1]` keeps
all but the last character, and the word-boundary trim then yields
`"hello..."`, not the bare ellipsis the claim requires. -/
theorem preview_nonpos_cex :
    get_content_preview "hello world" (-1) = "hello..."
    ∧ get_content_preview "hello world" (-1) ≠ "..." := by
  decide

/-- C5 counterexample: removing the disallowed `@` happens after whitespace
collapsing, leaving a double space that a second application of `clean_text`
collapses, so `clean_text` is not idempotent. -/
theorem clean_not_idempotent_cex :
    clean_text "a @ b" = "a  b"
    ∧ clean_text (clean_text "a @ b") ≠ clean_text "a @ b" := by
  decide

/-- C9 counterexample: the cleaned output of `"x @ y"` contains two adjacent
spaces, refuting the no-double-whitespace conjunct of the claim. -/
theorem clean_double_space_cex :
    clean_text "x @ y" = "x  y"
    ∧ noAdjSpace (clean_text "x @ y").data = false := by
  decide

set_option maxRecDepth 20000 in
/-- C8 counterexample: the 50-character minimum is checked after truncation,
so a 23-character cleaned text whose truncation marker pushes the length to
52 characters is accepted rather than rejected as empty content. -/
theorem short_cleaned_fetch_success_cex :
    (clean_text (extractedTextOf htmlEightWords)).length < 50
    ∧ (fetch_webpage_content (fun _ => some htmlEightWords) "http://a" 7).1 = true := by
  decide

/-- C4: a URL lacking an `http://` or `https://` prefix makes
`fetch_webpage_content` return the invalid-URL failure for every network
oracle, hence without any network call. -/
theorem fetch_invalid_url (net : String → Option String) (url : String) (mw : Int)
    (h : (pyStartsWith url "http://" || pyStartsWith url "https://") = false) :
    fetch_webpage_content net url mw =
      (false, "Invalid URL. Please include http:// or https://") := by
  simp [fetch_webpage_content, h]

/-- Witness for `fetch_invalid_url` at the concrete URL `ftp://example.com`. -/
theorem fetch_invalid_url_w :
    (pyStartsWith "ftp://example.com" "http://"
      || pyStartsWith "ftp://example.com" "https://") = false
    ∧ fetch_webpage_content (fun _ => none) "ftp://example.com" 25000 =
        (false, "Invalid URL. Please include http:// or https://") :=
  ⟨by decide, fetch_invalid_url (fun _ => none) "ftp://example.com" 25000 (by decide)⟩

/-! ### Structural lemmas on the cleaning pipeline -/

/-- Membership survives `dropWhile`. -/
lemma mem_of_mem_dropWhile {p : Char → Bool} {c : Char} {cs : List Char}
    (h : c ∈ cs.dropWhile p) : c ∈ cs :=
  (List.dropWhile_sublist p).subset h

/-- `collapseWsF` of the empty list is empty for every fuel. -/
lemma collapseWsF_nil : ∀ f, collapseWsF f [] = []
  | 0 => rfl
  | _ + 1 => rfl

/-- Every character emitted by the whitespace collapse is either the space it
substitutes for a run, or a non-whitespace character of the input. -/
lemma mem_collapseWsF {c : Char} :
    ∀ {f : Nat} {cs : List Char}, c ∈ collapseWsF f cs →
      c = ' ' ∨ (c ∈ cs ∧ isSpaceChar c = false) := by
  intro f
  induction f with
  | zero => intro cs h; simp [collapseWsF] at h
  | succ f ih =>
    intro cs h
    cases cs with
    | nil => simp [collapseWsF] at h
    | cons a t =>
      rw [collapseWsF] at h
      split at h
      · rcases List.mem_cons.mp h with h1 | h2
        · exact Or.inl h1
        · rcases ih h2 with h3 | ⟨h4, h5⟩
          · exact Or.inl h3
          · exact Or.inr ⟨List.mem_cons_of_mem _ (mem_of_mem_dropWhile h4), h5⟩
      · rcases List.mem_cons.mp h with h1 | h2
        · subst h1
          rename_i hns
          exact Or.inr ⟨List.mem_cons_self .., by simpa using hns⟩
        · rcases ih h2 with h3 | ⟨h4, h5⟩
          · exact Or.inl h3
          · exact Or.inr ⟨List.mem_cons_of_mem _ h4, h5⟩

/-- The whitespace collapse never emits a newline. -/
lemma no_newline_collapseWsF {f : Nat} {cs : List Char} : '\n' ∉ collapseWsF f cs := by
  intro h
  rcases mem_collapseWsF h with h1 | ⟨_, h2⟩
  · exact absurd h1 (by decide)
  · simp [isSpaceChar] at h2

/-- The blank-line collapse is the identity on newline-free text. -/
lemma sub2F_eq_self : ∀ (f : Nat) (cs : List Char), cs.length ≤ f → '\n' ∉ cs →
    sub2F f cs = cs := by
  intro f
  induction f with
  | zero =>
    intro cs h _
    cases cs with
    | nil => rfl
    | cons a t => simp at h
  | succ f ih =>
    intro cs h hn
    cases cs with
    | nil => rfl
    | cons a t =>
      rw [sub2F]
      have ha : ¬ a = '\n' := fun e => hn (e ▸ List.mem_cons_self ..)
      rw [if_neg ha]
      have := ih t (by simpa using Nat.le_of_succ_le_succ h)
        (fun hm => hn (List.mem_cons_of_mem _ hm))
      rw [this]

/-- Step 2 of `clean_text` never fires: step 1 already removed every
newline. -/
lemma sub2W_collapseW (cs : List Char) : sub2W (collapseW cs) = collapseW cs :=
  sub2F_eq_self _ _ le_rfl no_newline_collapseWsF

/-- `clean_text` with the (always inert) blank-line step resolved away. -/
lemma clean_text_eq (s : String) :
    clean_text s = String.mk (stripL (List.filter isKeptChar (collapseW s.data))) := by
  rw [clean_text, sub2W_collapseW]

/-- Membership survives the trailing-whitespace trim. -/
lemma mem_of_mem_dropTrailingWs {c : Char} :
    ∀ {cs : List Char}, c ∈ dropTrailingWs cs → c ∈ cs := by
  intro cs
  induction cs with
  | nil => intro h; simp [dropTrailingWs] at h
  | cons a t ih =>
    intro h
    rw [dropTrailingWs] at h
    split at h
    · simp at h
    · rcases List.mem_cons.mp h with h1 | h2
      · exact h1 ▸ List.mem_cons_self ..
      · exact List.mem_cons_of_mem _ (ih h2)

/-- Membership survives `str.strip()`. -/
lemma mem_of_mem_stripL {c : Char} {cs : List Char} (h : c ∈ stripL cs) : c ∈ cs :=
  mem_of_mem_dropWhile (mem_of_mem_dropTrailingWs h)

/-- The head surviving a `dropWhile` fails the predicate. -/
lemma head_dropWhile {p : Char → Bool} :
    ∀ {l t : List Char} {c : Char}, l.dropWhile p = c :: t → p c = false := by
  intro l
  induction l with
  | nil => intro t c h; simp at h
  | cons a l' ih =>
    intro t c h
    rw [List.dropWhile_cons] at h
    split at h
    · exact ih h
    · rename_i hpa
      cases h
      simpa using hpa

/-- Leading-whitespace removal is idempotent. -/
lemma dropWhile_dropWhile {p : Char → Bool} (l : List Char) :
    (l.dropWhile p).dropWhile p = l.dropWhile p := by
  cases h : l.dropWhile p with
  | nil => rfl
  | cons c t =>
    rw [List.dropWhile_cons, if_neg]
    rw [head_dropWhile h]
    simp

/-- The trailing-whitespace trim keeps the head of a nonempty result equal to
the head of its input. -/
lemma dropTrailingWs_head :
    ∀ {l t : List Char} {c : Char}, dropTrailingWs l = c :: t → ∃ l', l = c :: l' := by
  intro l
  cases l with
  | nil => intro t c h; simp [dropTrailingWs] at h
  | cons a l' =>
    intro t c h
    rw [dropTrailingWs] at h
    split at h
    · cases h
    · cases h
      exact ⟨l', rfl⟩

/-- Trailing-whitespace removal is idempotent. -/
lemma dropTrailingWs_idem : ∀ (l : List Char), dropTrailingWs (dropTrailingWs l) = dropTrailingWs l := by
  intro l
  induction l with
  | nil => rfl
  | cons a t ih =>
    rw [dropTrailingWs]
    split
    · rfl
    · rename_i hcond
      rw [dropTrailingWs, ih]
      rw [if_neg hcond]

/-- The last character surviving the trailing-whitespace trim is not
whitespace. -/
lemma getLast?_dropTrailingWs :
    ∀ {l : List Char} {c : Char}, (dropTrailingWs l).getLast? = some c →
      isSpaceChar c = false := by
  intro l
  induction l with
  | nil => intro c h; simp [dropTrailingWs] at h
  | cons a t ih =>
    intro c h
    rw [dropTrailingWs] at h
    split at h
    · simp at h
    · rename_i hcond
      cases hr : dropTrailingWs t with
      | nil =>
        rw [hr] at h
        simp at h
        rw [hr] at hcond
        simp at hcond
        cases h
        simpa using hcond
      | cons b r =>
        rw [hr] at h
        rw [List.getLast?_cons_cons] at h
        exact ih (hr ▸ h)

/-- A list fixed by leading-whitespace removal stays fixed after the
trailing trim. -/
lemma dropWhile_dropTrailingWs_fixed {l : List Char}
    (h : l.dropWhile isSpaceChar = l) :
    (dropTrailingWs l).dropWhile isSpaceChar = dropTrailingWs l := by
  cases hr : dropTrailingWs l with
  | nil => rfl
  | cons c t =>
    obtain ⟨l', hl⟩ := dropTrailingWs_head hr
    subst hl
    rw [List.dropWhile_cons] at h ⊢
    split at h
    · exfalso
      have hle := (List.dropWhile_sublist (l := l') isSpaceChar).length_le
      rw [h] at hle
      simp at hle
    · rename_i hpa
      rw [if_neg hpa]

/-- `str.strip()` is idempotent. -/
lemma stripL_idem (l : List Char) : stripL (stripL l) = stripL l := by
  show dropTrailingWs ((dropTrailingWs (l.dropWhile isSpaceChar)).dropWhile isSpaceChar)
      = dropTrailingWs (l.dropWhile isSpaceChar)
  rw [dropWhile_dropTrailingWs_fixed (dropWhile_dropWhile l), dropTrailingWs_idem]

/-- Split a true boolean conjunction. -/
lemma and_of_and_eq_true {a b : Bool} (h : (a && b) = true) : a = true ∧ b = true := by
  constructor
  · exact (Bool.and_elim_left h)
  · exact (Bool.and_elim_right h)

/-- `noAdjSpace` restricted to a tail. -/
lemma noAdjSpace_tail {a : Char} {t : List Char}
    (h : noAdjSpace (a :: t) = true) : noAdjSpace t = true := by
  cases t with
  | nil => rfl
  | cons b r =>
    rw [noAdjSpace] at h
    exact (and_of_and_eq_true h).2

/-- The pair condition inside `noAdjSpace`. -/
lemma noAdjSpace_pair {a b : Char} {t : List Char}
    (h : noAdjSpace (a :: b :: t) = true) : (isSpaceChar a && isSpaceChar b) = false := by
  rw [noAdjSpace] at h
  have h1 := (and_of_and_eq_true h).1
  cases hx : (isSpaceChar a && isSpaceChar b)
  · rfl
  · rw [hx] at h1
    cases h1

/-- Build `noAdjSpace` for a cons cell. -/
lemma noAdjSpace_cons {a : Char} {t : List Char}
    (hp : ∀ b r, t = b :: r → (isSpaceChar a && isSpaceChar b) = false)
    (ht : noAdjSpace t = true) : noAdjSpace (a :: t) = true := by
  cases t with
  | nil => rfl
  | cons b r =>
    rw [noAdjSpace]
    rw [hp b r rfl, ht]
    rfl

/-- A nonempty collapse result of a list with non-whitespace head starts with
that head. -/
lemma collapseWsF_head {f : Nat} {a : Char} {t : List Char}
    (ha : isSpaceChar a = false) :
    collapseWsF f (a :: t) = [] ∨ ∃ r, collapseWsF f (a :: t) = a :: r := by
  cases f with
  | zero => exact Or.inl rfl
  | succ f =>
    rw [collapseWsF, if_neg (by simp [ha])]
    exact Or.inr ⟨_, rfl⟩

/-- The whitespace collapse never emits two adjacent whitespace characters. -/
lemma noAdjSpace_collapseWsF : ∀ (f : Nat) (cs : List Char),
    noAdjSpace (collapseWsF f cs) = true := by
  intro f
  induction f with
  | zero => intro cs; rfl
  | succ f ih =>
    intro cs
    cases cs with
    | nil => rfl
    | cons a t =>
      rw [collapseWsF]
      split
      · -- a space was emitted; the rest starts with a non-whitespace character
        apply noAdjSpace_cons
        · intro b r hbr
          cases hd : t.dropWhile isSpaceChar with
          | nil =>
            rw [hd, collapseWsF_nil] at hbr
            cases hbr
          | cons d t' =>
            have hdns : isSpaceChar d = false := head_dropWhile hd
            rcases collapseWsF_head (f := f) (t := t') hdns with h0 | ⟨r', hr'⟩
            · rw [hd, h0] at hbr
              cases hbr
            · rw [hd, hr'] at hbr
              cases hbr
              simp [hdns]
        · exact ih _
      · rename_i hans
        apply noAdjSpace_cons
        · intro b r hbr
          rcases mem_collapseWsF (hbr ▸ List.mem_cons_self ..) with h1 | ⟨_, h2⟩
          · subst h1
            simp at hans
            simp [hans]
          · simp [h2]
        · exact ih _

/-- Whitespace-run collapsing is the identity on a list with no adjacent
whitespace whose whitespace is all plain spaces. -/
lemma collapseWsF_eq_self : ∀ (f : Nat) (cs : List Char), cs.length ≤ f →
    (∀ c ∈ cs, isSpaceChar c = true → c = ' ') → noAdjSpace cs = true →
    collapseWsF f cs = cs := by
  intro f
  induction f with
  | zero =>
    intro cs h _ _
    cases cs with
    | nil => rfl
    | cons a t => simp at h
  | succ f ih =>
    intro cs h hsp hadj
    cases cs with
    | nil => rfl
    | cons a t =>
      rw [collapseWsF]
      split
      · rename_i hspa
        have ha : a = ' ' := hsp a (List.mem_cons_self ..) (by simpa using hspa)
        cases t with
        | nil => simp [ha, collapseWsF_nil]
        | cons b r =>
          have hb : isSpaceChar b = false := by
            have := noAdjSpace_pair hadj
            rw [Bool.and_eq_false_iff] at this
            rcases this with h1 | h1
            · rw [h1] at hspa; cases hspa
            · exact h1
          rw [List.dropWhile_cons, if_neg (by simp [hb])]
          rw [ih (b :: r) (by simpa using Nat.le_of_succ_le_succ h)
            (fun c hc => hsp c (List.mem_cons_of_mem _ hc)) (noAdjSpace_tail hadj)]
          rw [ha]
      · rw [ih t (by simpa using Nat.le_of_succ_le_succ h)
          (fun c hc => hsp c (List.mem_cons_of_mem _ hc)) (noAdjSpace_tail hadj)]

/-- `noAdjSpace` survives `dropWhile`. -/
lemma noAdjSpace_dropWhile {p : Char → Bool} :
    ∀ {l : List Char}, noAdjSpace l = true → noAdjSpace (l.dropWhile p) = true := by
  intro l
  induction l with
  | nil => intro h; exact h
  | cons a t ih =>
    intro h
    rw [List.dropWhile_cons]
    split
    · exact ih (noAdjSpace_tail h)
    · exact h

/-- `noAdjSpace` survives the trailing-whitespace trim. -/
lemma noAdjSpace_dropTrailingWs :
    ∀ {l : List Char}, noAdjSpace l = true → noAdjSpace (dropTrailingWs l) = true := by
  intro l
  induction l with
  | nil => intro h; exact h
  | cons a t ih =>
    intro h
    rw [dropTrailingWs]
    split
    · rfl
    · apply noAdjSpace_cons
      · intro b r hbr
        obtain ⟨t', ht'⟩ := dropTrailingWs_head hbr
        subst ht'
        exact noAdjSpace_pair h
      · exact ih (noAdjSpace_tail h)

/-- `noAdjSpace` survives `str.strip()`. -/
lemma noAdjSpace_stripL {l : List Char} (h : noAdjSpace l = true) :
    noAdjSpace (stripL l) = true :=
  noAdjSpace_dropTrailingWs (noAdjSpace_dropWhile h)

/-- The character list of the cleaned text. -/
lemma clean_text_data (s : String) :
    (clean_text s).data = stripL (List.filter isKeptChar (collapseW s.data)) := by
  rw [clean_text_eq]

/-- Every character of the cleaned text is in the allow-list. -/
lemma mem_clean_kept {s : String} {c : Char} (h : c ∈ (clean_text s).data) :
    isKeptChar c = true := by
  rw [clean_text_data] at h
  exact List.of_mem_filter (mem_of_mem_stripL h)

/-- Every whitespace character of the cleaned text is a plain space. -/
lemma mem_clean_space {s : String} {c : Char} (h : c ∈ (clean_text s).data)
    (hs : isSpaceChar c = true) : c = ' ' := by
  rw [clean_text_data] at h
  have h2 := List.mem_of_mem_filter (mem_of_mem_stripL h)
  rcases mem_collapseWsF h2 with h3 | ⟨_, h4⟩
  · exact h3
  · rw [hs] at h4
    cases h4

/-- On all-allowed input the character filter of `clean_text` is inert. -/
lemma clean_text_eq_of_kept (s : String) (h : ∀ c ∈ s.data, isKeptChar c = true) :
    clean_text s = String.mk (stripL (collapseW s.data)) := by
  rw [clean_text_eq]
  have hall : ∀ c ∈ collapseW s.data, isKeptChar c = true := by
    intro c hc
    rcases mem_collapseWsF hc with h1 | ⟨h2, _⟩
    · subst h1; decide
    · exact h c h2
  rw [List.filter_eq_self.mpr (by simpa using hall)]

/-- `clean_text` is idempotent on input made only of allowed characters. -/
lemma clean_text_idem_of_kept (s : String) (h : ∀ c ∈ s.data, isKeptChar c = true) :
    clean_text (clean_text s) = clean_text s := by
  have e1 : clean_text s = String.mk (stripL (collapseW s.data)) :=
    clean_text_eq_of_kept s h
  have hdata : (clean_text s).data = stripL (collapseW s.data) := by rw [e1]
  have hyk : ∀ c ∈ stripL (collapseW s.data), isKeptChar c = true := by
    intro c hc
    rcases mem_collapseWsF (mem_of_mem_stripL hc) with h1 | ⟨h2, _⟩
    · subst h1; decide
    · exact h c h2
  have e2 : clean_text (clean_text s)
      = String.mk (stripL (collapseW (stripL (collapseW s.data)))) := by
    rw [clean_text_eq_of_kept (clean_text s) (by rw [hdata]; exact hyk), hdata]
  have hsp : ∀ c ∈ stripL (collapseW s.data), isSpaceChar c = true → c = ' ' := by
    intro c hc hspc
    rcases mem_collapseWsF (mem_of_mem_stripL hc) with h1 | ⟨_, h2⟩
    · exact h1
    · rw [hspc] at h2; cases h2
  have hadj : noAdjSpace (stripL (collapseW s.data)) = true :=
    noAdjSpace_stripL (noAdjSpace_collapseWsF _ _)
  have e3 : collapseW (stripL (collapseW s.data)) = stripL (collapseW s.data) :=
    collapseWsF_eq_self _ _ le_rfl hsp hadj
  rw [e2, e3, stripL_idem, e1]

/-! ### Claim theorems on `clean_text` -/

/-- C5 (amended): `clean_text` is not idempotent (see
`clean_not_idempotent_cex`), but a second application reaches a fixed point:
cleaning three times equals cleaning twice, for every input. -/
theorem clean_text_twice_fixed (s : String) :
    clean_text (clean_text (clean_text s)) = clean_text (clean_text s) :=
  clean_text_idem_of_kept (clean_text s) (fun _ hc => mem_clean_kept hc)

/-- C10: the cleaned text never contains a newline — the whitespace collapse
replaces every newline with a space — and consequently the blank-line
collapse step of `clean_text` is inert on its actual input. -/
theorem clean_text_no_newline (s : String) :
    (clean_text s).data.contains '\n' = false
    ∧ sub2W (collapseW s.data) = collapseW s.data := by
  constructor
  · rw [List.contains_eq_any_beq]
    rw [Bool.eq_false_iff]
    intro hc
    rw [List.any_eq_true] at hc
    obtain ⟨c, hmem, hbeq⟩ := hc
    have hcn : c = '\n' := by
      have := eq_of_beq hbeq
      exact this.symm
    subst hcn
    rw [clean_text_data] at hmem
    exact no_newline_collapseWsF (List.mem_of_mem_filter (mem_of_mem_stripL hmem))
  · exact sub2W_collapseW _

/-- C9 (amended): every character of the cleaned text is in the allow-list,
its only whitespace character is the plain space, and it has no leading or
trailing whitespace.  (Runs of several spaces can remain: see
`clean_double_space_cex`.) -/
theorem clean_text_charset (s : String) :
    (clean_text s).data.all isKeptChar = true
    ∧ (clean_text s).data.all (fun c => !isSpaceChar c || c == ' ') = true
    ∧ ((clean_text s).data.head?.all fun c => !isSpaceChar c) = true
    ∧ ((clean_text s).data.getLast?.all fun c => !isSpaceChar c) = true := by
  refine ⟨?_, ?_, ?_, ?_⟩
  · rw [List.all_eq_true]
    intro c hc
    simpa using mem_clean_kept hc
  · rw [List.all_eq_true]
    intro c hc
    cases hs : isSpaceChar c with
    | false => simp [hs]
    | true =>
      have := mem_clean_space hc hs
      subst this
      simp
  · cases hl : (clean_text s).data with
    | nil => rfl
    | cons a t =>
      rw [clean_text_data] at hl
      obtain ⟨l', hl'⟩ := dropTrailingWs_head hl
      have := head_dropWhile hl'
      simp [this]
  · cases hg : (clean_text s).data.getLast? with
    | none => rfl
    | some c =>
      rw [clean_text_data] at hg
      have := getLast?_dropTrailingWs hg
      simp [this]

/-! ### Lemmas on splitting, joining and slicing -/

/-- A nonnegative Python slice bound is `List.take`. -/
lemma pySliceL_nonneg {α : Type} (l : List α) {n : Int} (h : 0 ≤ n) :
    pySliceL l n = l.take n.toNat :=
  if_pos h

/-- A negative Python slice bound drops elements from the end. -/
lemma pySliceL_neg {α : Type} (l : List α) {n : Int} (h : ¬ 0 ≤ n) :
    pySliceL l n = l.take (l.length - (-n).toNat) :=
  if_neg h

/-- Any Python slice of a `take` is again a `take`, with a bound no larger. -/
lemma pySliceL_take {α : Type} (l : List α) (m : Nat) (n : Int) :
    ∃ k, k ≤ m ∧ pySliceL (l.take m) n = l.take k := by
  rw [pySliceL]
  split
  · exact ⟨min n.toNat m, Nat.min_le_right .., by rw [List.take_take]⟩
  · exact ⟨min ((l.take m).length - (-n).toNat) m, Nat.min_le_right ..,
      by rw [List.take_take]⟩

/-- `split()` of the empty string is empty for every fuel. -/
lemma pySplitF_nil : ∀ f, pySplitF f [] = []
  | 0 => rfl
  | _ + 1 => rfl

/-- Characters kept by a `takeWhile` satisfy its predicate. -/
lemma pred_of_mem_takeWhile {p : Char → Bool} :
    ∀ {l : List Char} {c : Char}, c ∈ l.takeWhile p → p c = true := by
  intro l
  induction l with
  | nil => intro c h; simp at h
  | cons a t ih =>
    intro c h
    rw [List.takeWhile_cons] at h
    split at h
    · rcases List.mem_cons.mp h with h1 | h2
      · subst h1; assumption
      · exact ih h2
    · simp at h

/-- Every token produced by `split()` is nonempty and whitespace-free. -/
lemma pySplitF_tokens : ∀ (f : Nat) (cs : List Char) (w : List Char),
    w ∈ pySplitF f cs → w ≠ [] ∧ ∀ c ∈ w, isSpaceChar c = false := by
  intro f
  induction f with
  | zero => intro cs w h; simp [pySplitF] at h
  | succ f ih =>
    intro cs w h
    cases cs with
    | nil => simp [pySplitF] at h
    | cons a t =>
      rw [pySplitF] at h
      split at h
      · exact ih t w h
      · rename_i hans
        rcases List.mem_cons.mp h with h1 | h2
        · subst h1
          refine ⟨by simp, ?_⟩
          intro c hc
          rcases List.mem_cons.mp hc with h3 | h4
          · subst h3; simpa using hans
          · have := pred_of_mem_takeWhile h4
            simpa using this
        · exact ih _ w h2

/-- Unfolding equation for `joinL` on two or more words. -/
lemma joinL_cons_cons (w w2 : List Char) (ws : List (List Char)) :
    joinL (w :: w2 :: ws) = w ++ ' ' :: joinL (w2 :: ws) := rfl

/-- Unfolding equation for `pySplitF` on a cons cell. -/
lemma pySplitF_succ_cons (f : Nat) (a : Char) (t : List Char) :
    pySplitF (f + 1) (a :: t)
      = if isSpaceChar a then pySplitF f t
        else (a :: t.takeWhile (fun d => !isSpaceChar d)) ::
          pySplitF f (t.dropWhile (fun d => !isSpaceChar d)) := rfl

/-- `takeWhile` runs through an all-satisfying chunk. -/
lemma takeWhile_append_all {p : Char → Bool} :
    ∀ {w r : List Char}, (∀ c ∈ w, p c = true) →
      (w ++ r).takeWhile p = w ++ r.takeWhile p := by
  intro w
  induction w with
  | nil => intro r _; rfl
  | cons a t ih =>
    intro r h
    rw [List.cons_append, List.takeWhile_cons,
      if_pos (h a (List.mem_cons_self ..)), ih (fun c hc => h c (List.mem_cons_of_mem _ hc)),
      List.cons_append]

/-- `dropWhile` runs through an all-satisfying chunk. -/
lemma dropWhile_append_all {p : Char → Bool} :
    ∀ {w r : List Char}, (∀ c ∈ w, p c = true) →
      (w ++ r).dropWhile p = r.dropWhile p := by
  intro w
  induction w with
  | nil => intro r _; rfl
  | cons a t ih =>
    intro r h
    rw [List.cons_append, List.dropWhile_cons,
      if_pos (h a (List.mem_cons_self ..))]
    exact ih (fun c hc => h c (List.mem_cons_of_mem _ hc))

/-- `split()` undoes `' '.join(...)` on legitimate token lists (nonempty,
whitespace-free), given enough fuel. -/
lemma pySplitF_joinL : ∀ (ws : List (List Char)) (f : Nat),
    (∀ w ∈ ws, w ≠ [] ∧ ∀ c ∈ w, isSpaceChar c = false) →
    (joinL ws).length ≤ f →
    pySplitF f (joinL ws) = ws := by
  intro ws
  induction ws with
  | nil =>
    intro f _ _
    rw [joinL, pySplitF_nil]
  | cons w ws ih =>
    intro f hw hf
    obtain ⟨hwne, hwns⟩ := hw w (List.mem_cons_self ..)
    cases ws with
    | nil =>
      rw [joinL] at hf ⊢
      cases w with
      | nil => exact absurd rfl hwne
      | cons a t =>
        cases f with
        | zero => simp at hf
        | succ f =>
          rw [pySplitF_succ_cons,
            if_neg (by simp [hwns a (List.mem_cons_self ..)]),
            List.takeWhile_eq_self_iff.mpr
              (fun c hc => by simp [hwns c (List.mem_cons_of_mem _ hc)]),
            List.dropWhile_eq_nil_iff.mpr
              (fun c hc => by simp [hwns c (List.mem_cons_of_mem _ hc)]),
            pySplitF_nil]
    | cons w2 ws2 =>
      rw [joinL_cons_cons] at hf ⊢
      cases w with
      | nil => exact absurd rfl hwne
      | cons a t =>
        cases f with
        | zero => simp at hf
        | succ f =>
          have htns : ∀ c ∈ t, (fun d => !isSpaceChar d) c = true :=
            fun c hc => by simp [hwns c (List.mem_cons_of_mem _ hc)]
          rw [List.cons_append, pySplitF_succ_cons,
            if_neg (by simp [hwns a (List.mem_cons_self ..)]),
            takeWhile_append_all htns,
            List.takeWhile_cons, if_neg (by decide),
            List.append_nil,
            dropWhile_append_all htns,
            List.dropWhile_cons, if_neg (by decide)]
          cases f with
          | zero =>
            exfalso
            simp only [List.length_cons, List.length_append] at hf
            omega
          | succ f =>
            rw [pySplitF_succ_cons, if_pos (by decide)]
            rw [ih f (fun v hv => hw v (List.mem_cons_of_mem _ hv))
              (by simp only [List.length_cons, List.length_append] at hf ⊢; omega)]

/-- Unfolding equation for `truncateWords`. -/
lemma truncateWords_eq (text : String) (mw : Int) :
    truncateWords text mw
      = if ((pySplitS text).length : Int) > mw then
          joinWords (pySliceL (pySplitS text) mw) ++ truncMarker mw
        else text := rfl

/-- The underlying character lists of the split of a string. -/
lemma map_data_pySplitS (text : String) :
    List.map String.data (pySplitS text) = pySplitL text.data := by
  have hdm : (String.data ∘ String.mk) = (id : List Char → List Char) :=
    funext fun _ => rfl
  rw [pySplitS, List.map_map, hdm, List.map_id]

/-! ### Claim theorems on truncation -/

/-- C6: with a nonnegative word budget, truncation returns the text unchanged
when its token count is within budget; otherwise it returns the first
`max_words` tokens joined by single spaces followed by the literal marker,
and that body splits back into at most `max_words` tokens. -/
theorem truncate_words_nonneg (text : String) (mw : Int) (h : 0 ≤ mw) :
    (((pySplitS text).length : Int) ≤ mw → truncateWords text mw = text)
    ∧ (mw < ((pySplitS text).length : Int) →
        truncateWords text mw
          = joinWords ((pySplitS text).take mw.toNat) ++ truncMarker mw
        ∧ (pySplitS (joinWords ((pySplitS text).take mw.toNat))).length ≤ mw.toNat) := by
  constructor
  · intro hle
    rw [truncateWords_eq, if_neg (by omega)]
  · intro hgt
    constructor
    · rw [truncateWords_eq, if_pos (by omega), pySliceL_nonneg _ h]
    · have hws : List.map String.data ((pySplitS text).take mw.toNat)
          = (pySplitL text.data).take mw.toNat := by
        rw [List.map_take, map_data_pySplitS]
      have htok : ∀ w ∈ (pySplitL text.data).take mw.toNat,
          w ≠ [] ∧ ∀ c ∈ w, isSpaceChar c = false :=
        fun w hw => pySplitF_tokens _ _ _ (List.mem_of_mem_take hw)
      have hsplit : pySplitL (joinL ((pySplitL text.data).take mw.toNat))
          = (pySplitL text.data).take mw.toNat :=
        pySplitF_joinL _ _ htok le_rfl
      show (List.map String.mk (pySplitL
        (joinL (List.map String.data ((pySplitS text).take mw.toNat))))).length ≤ mw.toNat
      rw [hws, hsplit]
      simp [List.length_take]

/-- Witness for `truncate_words_nonneg` at the scenario-B text with budget 3. -/
theorem truncate_words_nonneg_w :
    (0 : Int) ≤ 3
    ∧ ((((pySplitS "one two three four five").length : Int) ≤ 3 →
          truncateWords "one two three four five" 3 = "one two three four five")
       ∧ ((3 : Int) < ((pySplitS "one two three four five").length : Int) →
          truncateWords "one two three four five" 3
            = joinWords ((pySplitS "one two three four five").take (3 : Int).toNat)
              ++ truncMarker 3
          ∧ (pySplitS (joinWords ((pySplitS "one two three four five").take
              (3 : Int).toNat))).length ≤ (3 : Int).toNat)) :=
  ⟨by decide, truncate_words_nonneg "one two three four five" 3 (by decide)⟩

/-- C2 (amended): with a nonpositive word budget, truncation is still total
and well defined, and the marker is appended whenever the text has at least
one token; but only `max_words = 0` empties the body — a negative budget
keeps all tokens except the last `|max_words|` of them, because of Python's
negative slice `words[:max_words]`. -/
theorem truncate_words_nonpos (text : String) (mw : Int) (h : mw ≤ 0)
    (h2 : pySplitS text ≠ []) :
    (mw = 0 → truncateWords text mw = truncMarker 0)
    ∧ (mw < 0 →
        truncateWords text mw
          = joinWords ((pySplitS text).take
              ((pySplitS text).length - (-mw).toNat))
            ++ truncMarker mw) := by
  have hlen : 1 ≤ (pySplitS text).length := by
    cases hw : pySplitS text with
    | nil => exact absurd hw h2
    | cons _ _ => simp [hw]
  constructor
  · intro h0
    subst h0
    rw [truncateWords_eq, if_pos (by omega), pySliceL_nonneg _ le_rfl]
    show joinWords (List.take 0 _) ++ truncMarker 0 = truncMarker 0
    rw [List.take_zero]
    rfl
  · intro hneg
    rw [truncateWords_eq, if_pos (by omega), pySliceL_neg _ (by omega)]

/-- Witness for `truncate_words_nonpos` at text `"a b c"` with budget `-1`. -/
theorem truncate_words_nonpos_w :
    ((-1 : Int) ≤ 0 ∧ pySplitS "a b c" ≠ [])
    ∧ (((-1 : Int) = 0 → truncateWords "a b c" (-1) = truncMarker 0)
       ∧ ((-1 : Int) < 0 →
           truncateWords "a b c" (-1)
             = joinWords ((pySplitS "a b c").take
                 ((pySplitS "a b c").length - (-(-1 : Int)).toNat))
               ++ truncMarker (-1))) :=
  ⟨⟨by decide, by decide⟩, truncate_words_nonpos "a b c" (-1) (by decide) (by decide)⟩

/-- Unfolding equation for `get_content_preview`. -/
lemma get_content_preview_eq (c : String) (mc : Int) :
    get_content_preview c mc
      = if ((c.length : Int)) ≤ mc then c
        else if 5 * rfindSpace (pySliceL c.data mc) > 4 * mc then
          String.mk (pySliceL (pySliceL c.data mc) (rfindSpace (pySliceL c.data mc))) ++ "..."
        else String.mk (pySliceL c.data mc) ++ "..." := rfl

/-- In the truncating branch, the preview body is always a `take` of the
content, bounded by the length of the first slice. -/
lemma preview_else_take (c : String) (mc : Int) (hnot : ¬ ((c.length : Int) ≤ mc))
    {m : Nat} (hm : pySliceL c.data mc = c.data.take m) :
    ∃ k, k ≤ m ∧ get_content_preview c mc = String.mk (c.data.take k) ++ "..." := by
  rw [get_content_preview_eq, if_neg hnot, hm]
  split
  · obtain ⟨k, hk, he⟩ := pySliceL_take c.data m (rfindSpace (c.data.take m))
    exact ⟨k, hk, by rw [he]⟩
  · exact ⟨m, le_rfl, rfl⟩

/-! ### Claim theorems on the previewer -/

/-- C7: with a nonnegative character budget, the preview returns the content
unchanged when it fits; otherwise it returns a prefix of at most `max_chars`
characters (possibly trimmed back to a space) with an ellipsis appended, and
in every case the result is at most `max_chars + 3` characters long. -/
theorem preview_nonneg_spec (c : String) (mc : Int) (h : 0 ≤ mc) :
    ((c.length : Int) ≤ mc → get_content_preview c mc = c)
    ∧ (mc < (c.length : Int) →
        ∃ k, k ≤ mc.toNat
          ∧ get_content_preview c mc = String.mk (c.data.take k) ++ "...")
    ∧ (get_content_preview c mc).length ≤ mc.toNat + 3 := by
  by_cases hle : (c.length : Int) ≤ mc
  · refine ⟨fun _ => ?_, fun hgt => absurd hle (by omega), ?_⟩
    · rw [get_content_preview_eq, if_pos hle]
    · rw [get_content_preview_eq, if_pos hle]
      omega
  · have hm : pySliceL c.data mc = c.data.take mc.toNat := pySliceL_nonneg _ h
    obtain ⟨k, hk, he⟩ := preview_else_take c mc hle hm
    refine ⟨fun hle2 => absurd hle2 hle, fun _ => ⟨k, hk, he⟩, ?_⟩
    rw [he, String.length_append]
    have h1 : (String.mk (c.data.take k)).length = (c.data.take k).length := rfl
    have h2 : (c.data.take k).length ≤ k := by simp
    have h3 : ("..." : String).length = 3 := rfl
    omega

/-- Witness for `preview_nonneg_spec` at content of length 15 with budget 12
(the preview trims back to the space at index 11 and appends the ellipsis). -/
theorem preview_nonneg_spec_w :
    (0 : Int) ≤ 12
    ∧ (((("hello world bar" : String).length : Int) ≤ 12 →
          get_content_preview "hello world bar" 12 = "hello world bar")
       ∧ ((12 : Int) < (("hello world bar" : String).length : Int) →
          ∃ k, k ≤ (12 : Int).toNat
            ∧ get_content_preview "hello world bar" 12
                = String.mk (("hello world bar" : String).data.take k) ++ "...")
       ∧ (get_content_preview "hello world bar" 12).length ≤ (12 : Int).toNat + 3) :=
  ⟨by decide, preview_nonneg_spec "hello world bar" 12 (by decide)⟩

/-- C3 (amended): the preview is total for every content string and every
integer `max_chars`, but a negative `max_chars` does not trim to the empty
body: the slice `content[:max_chars]` keeps all but the last `|max_chars|`
characters (Python negative slicing), so the result is some prefix of at most
`len(content) - |max_chars|` characters followed by the ellipsis (exactly
`"..."` only when that slice is empty or trims to empty); content is
returned unchanged only in the vacuous case `content = ""`, `max_chars = 0`. -/
theorem preview_nonpos_spec (c : String) (mc : Int) (h : mc ≤ 0) :
    (c = "" ∧ mc = 0 ∧ get_content_preview c mc = c)
    ∨ ∃ k, k ≤ c.length - (-mc).toNat
        ∧ get_content_preview c mc = String.mk (c.data.take k) ++ "..." := by
  by_cases hle : (c.length : Int) ≤ mc
  · left
    have hc0 : c.length = 0 := by omega
    have hmc : mc = 0 := by omega
    have hcd : c.data = [] := List.eq_nil_of_length_eq_zero hc0
    have hce : c = "" := by
      cases c with
      | mk d =>
        cases hcd
        rfl
    exact ⟨hce, hmc, by rw [get_content_preview_eq, if_pos hle]⟩
  · right
    rcases eq_or_lt_of_le h with h0 | hneg
    · subst h0
      have hm : pySliceL c.data (0 : Int) = c.data.take (0 : Int).toNat :=
        pySliceL_nonneg _ le_rfl
      obtain ⟨k, hk, he⟩ := preview_else_take c 0 hle hm
      exact ⟨k, by omega, he⟩
    · have hm : pySliceL c.data mc = c.data.take (c.data.length - (-mc).toNat) :=
        pySliceL_neg _ (by omega)
      obtain ⟨k, hk, he⟩ := preview_else_take c mc hle hm
      exact ⟨k, hk, he⟩

/-- Witness for `preview_nonpos_spec` at content `"ab"` with budget `-1`
(the result is `"a..."`, not `"..."`). -/
theorem preview_nonpos_spec_w :
    (-1 : Int) ≤ 0
    ∧ ((("ab" : String) = "" ∧ (-1 : Int) = 0
          ∧ get_content_preview "ab" (-1) = "ab")
       ∨ ∃ k, k ≤ ("ab" : String).length - (-(-1 : Int)).toNat
          ∧ get_content_preview "ab" (-1)
              = String.mk (("ab" : String).data.take k) ++ "...") :=
  ⟨by decide, preview_nonpos_spec "ab" (-1) (by decide)⟩

/-! ### Claim theorem on the empty-content guard -/

/-- C8 (amended): the fetch rejects with the empty-content failure exactly
from the post-truncation text: whenever the truncated cleaned text is empty
or strips to fewer than 50 characters, the result is the `EmptyContent`
failure.  (The pre-truncation cleaned text being short does not suffice: see
`short_cleaned_fetch_success_cex`.) -/
theorem fetch_empty_content (url html : String) (mw : Int)
    (h : truncateWords (clean_text (extractedTextOf html)) mw = ""
       ∨ (pyStrip (truncateWords (clean_text (extractedTextOf html)) mw)).length < 50) :
    processHtml url html mw = (false, "No meaningful content found on the webpage.") := by
  have hcond : (truncateWords (clean_text (extractedTextOf html)) mw == ""
      || decide ((pyStrip (truncateWords (clean_text (extractedTextOf html)) mw)).length < 50))
      = true := by
    rcases h with h1 | h2
    · rw [h1]
      simp
    · simp [h2]
  simp only [processHtml]
  rw [if_pos hcond]

set_option maxRecDepth 20000 in
/-- Witness for `fetch_empty_content`: the page whose only visible text is
the 10-character string `ten chars!` is rejected as empty content. -/
theorem fetch_empty_content_w :
    (truncateWords (clean_text (extractedTextOf htmlTenChars)) 25000 = ""
      ∨ (pyStrip (truncateWords (clean_text (extractedTextOf htmlTenChars)) 25000)).length < 50)
    ∧ processHtml "http://a" htmlTenChars 25000
        = (false, "No meaningful content found on the webpage.") :=
  ⟨Or.inr (by decide),
    fetch_empty_content "http://a" htmlTenChars 25000 (Or.inr (by decide))⟩
